import Mathlib

/-!
A verification development for the master-mold command dispatcher.

The Go packages `pkg/binary` (naming convention, binary locator, binary
enumerator), `pkg/display` (display-layer deduplication) and `pkg/command`
(command registry / dispatch) are embedded shallowly.  Filesystem-dependent
functions (`os.Stat`, `os.ReadDir`, `os.MkdirAll`, `exec.LookPath`) are
modelled by threading an explicit filesystem state `FS` through the
definitions; everything else is a direct transcription of the Go source.
-/

/-- Result of a successful `os.Stat`: whether the path is a directory
(`fs.ModeDir`) and its permission bits (the low 9 bits of `fs.FileMode`). -/
structure FileStat where
  isDir : Bool
  mode : Nat
deriving Repr, DecidableEq

/-- One entry returned by `os.ReadDir`: its name and whether it is a
directory. -/
structure DirEntry where
  name : String
  isDir : Bool
deriving Repr, DecidableEq

/-- The filesystem state.
`stats` maps a path to its `os.Stat` result; a path that is absent does not
exist (`os.Stat` fails with a not-exist error).
`readdirs` maps a directory path to its `os.ReadDir` result in listing
order; `none` (or an absent path) means `os.ReadDir` fails, which models an
unreadable directory.
`mkdirFail` is the set of paths on which `os.MkdirAll` fails. -/
structure FS where
  stats : List (String × FileStat)
  readdirs : List (String × Option (List DirEntry))
  mkdirFail : List String
deriving Repr

/-- `os.Stat`: `some` on success, `none` for a not-exist failure. -/
def statFS (fs : FS) (path : String) : Option FileStat :=
  fs.stats.lookup path

/-- `os.ReadDir`: the entries in listing order, or `none` when the read
fails (missing or unreadable directory). -/
def readDirFS (fs : FS) (dir : String) : Option (List DirEntry) :=
  match fs.readdirs.lookup dir with
  | some (some entries) => some entries
  | _ => none

/-- `os.MkdirAll dir 0o755`: the filesystem with `dir` created as an empty
directory.  (Callers consult `fs.mkdirFail` for the failure case.) -/
def mkdirAll (fs : FS) (dir : String) : FS :=
  { fs with
    stats := (dir, ⟨true, 0o755⟩) :: fs.stats
    readdirs := (dir, some ([] : List DirEntry)) :: fs.readdirs }

/-- `filepath.Join dir file` for the two-component case.  Go additionally
runs `Clean` on the result; this embedding covers components that are
already clean (no trailing slash, no `.`/`..` segments), which includes
every call site below, plus the `.` directory that `exec.LookPath`
substitutes for an empty search-path entry. -/
def Join (dir file : String) : String :=
  if dir = "" then file
  else if dir = "." then file
  else dir ++ "/" ++ file

/-- `filepath.Base` (Unix): strip trailing slashes, then keep everything
after the last slash; the empty path gives `"."` and an all-slash path gives
`"/"`. -/
def Base (path : String) : String :=
  if path = "" then "."
  else
    let noTrail := ((path.toList.reverse.dropWhile (fun c => c = '/')).reverse)
    if noTrail = [] then "/"
    else String.mk ((noTrail.reverse.takeWhile (fun c => c ≠ '/')).reverse)

/-- `strings.HasPrefix s pre`, computed over the character lists (for
UTF-8 strings a byte prefix and a character prefix coincide). -/
def HasPrefix (s pre : String) : Bool :=
  pre.toList.isPrefixOf s.toList

/-- `strings.TrimPrefix s pre`: `s` without the leading `pre` when `pre` is
a prefix of `s`, otherwise `s` unchanged. -/
def TrimPrefix (s pre : String) : String :=
  if HasPrefix s pre then String.mk (s.toList.drop pre.toList.length) else s

/-- `strings.Split s sep` for a one-character separator, over character
lists: splitting the empty string gives one empty field. -/
def splitChars (sep : Char) : List Char → List (List Char)
  | [] => [[]]
  | c :: rest =>
    match splitChars sep rest with
    | [] => [[]]
    | group :: groups =>
      if c = sep then [] :: group :: groups
      else (c :: group) :: groups

/-- `strings.Split s ":"`: the fields of `s` between colons. -/
def splitOnColon (s : String) : List String :=
  (splitChars ':' s.toList).map String.mk

/-- `filepath.SplitList` (Unix): the empty string gives no entries,
otherwise `strings.Split` on the list separator `:`. -/
def SplitList (path : String) : List String :=
  if path = "" then [] else splitOnColon path

/-- `filepath.IsAbs` (Unix). -/
def IsAbs (path : String) : Bool := HasPrefix path "/"

/-- `MMPrefix` from pkg/binary: the short prefix for master-mold
binaries. -/
def MMPrefix : String := "mm-"

/-- `MasterMoldPrefix` from pkg/binary: the long prefix for master-mold
binaries. -/
def MasterMoldPrefix : String := "master-mold-"

/-- `ValidPrefixes` from pkg/binary: all valid binary prefixes, in
iteration order. -/
def ValidPrefixes : List String := [MMPrefix, MasterMoldPrefix]

/-- The `for … range ValidPrefixes()` loop of `HasValidPrefix`. -/
def hasValidPrefixGo (filename : String) : List String → Bool
  | [] => false
  | pre :: rest =>
    if HasPrefix filename pre then true else hasValidPrefixGo filename rest

/-- `HasValidPrefix` from pkg/binary: whether a filename has a valid
master-mold binary prefix. -/
def HasValidPrefix (filename : String) : Bool :=
  hasValidPrefixGo filename ValidPrefixes

/-- `IsExecutable` from pkg/binary: `os.Stat` succeeds and
`fileInfo.Mode()&0111 != 0`. -/
def IsExecutable (fs : FS) (path : String) : Bool :=
  match statFS fs path with
  | none => false
  | some fileInfo => fileInfo.mode &&& 0o111 != 0

/-- The `for … range ValidPrefixes()` loop of `ExtractCommandName`. -/
def extractCommandNameGo (commandName : String) : List String → String
  | [] => commandName
  | pre :: rest =>
    if HasPrefix commandName pre then TrimPrefix commandName pre
    else extractCommandNameGo commandName rest

/-- `ExtractCommandName` from pkg/binary: the base name of the binary path
with the first matching valid prefix trimmed. -/
def ExtractCommandName (binaryPath : String) : String :=
  extractCommandNameGo (Base binaryPath) ValidPrefixes

/-- The entry loop of `FindInDirectory`: skip directories, keep entries
with a valid prefix whose joined path is executable. -/
def findInDirectoryGo (fs : FS) (dir : String) : List DirEntry → List String
  | [] => []
  | entry :: rest =>
    if entry.isDir then findInDirectoryGo fs dir rest
    else if HasValidPrefix entry.name then
      let fullPath := Join dir entry.name
      if IsExecutable fs fullPath then fullPath :: findInDirectoryGo fs dir rest
      else findInDirectoryGo fs dir rest
    else findInDirectoryGo fs dir rest

/-- `FindInDirectory` from pkg/binary: all master-mold binaries in one
directory.  A missing directory (`os.IsNotExist` on the stat) yields no
binaries and no error; a failing `os.ReadDir` yields a wrapped error. -/
def FindInDirectory (fs : FS) (dir : String) : Except String (List String) :=
  if (statFS fs dir).isNone then .ok []
  else
    match readDirFS fs dir with
    | none => .error ("failed to read directory: " ++ dir)
    | some entries => .ok (findInDirectoryGo fs dir entries)

/-- The directory loop of `FindInPath`: a directory whose scan fails is
skipped. -/
def findInPathGo (fs : FS) : List String → List String
  | [] => []
  | dir :: rest =>
    match FindInDirectory fs dir with
    | .error _ => findInPathGo fs rest
    | .ok binaries => binaries ++ findInPathGo fs rest

/-- `FindInPath` from pkg/binary: all master-mold binaries in the system
PATH.  `pathEnv` is the value of the `PATH` environment variable, split on
the platform list separator with `strings.Split`. -/
def FindInPath (fs : FS) (pathEnv : String) : Except String (List String) :=
  .ok (findInPathGo fs (splitOnColon pathEnv))

/-- `FindAll` from pkg/binary: create `baseDir` when it does not exist
(failure to create is an error), then the base-directory binaries followed
by the PATH binaries.  The updated filesystem is returned alongside the
result to expose the `os.MkdirAll` side effect. -/
def FindAll (fs : FS) (pathEnv : String) (baseDir : String) :
    Except String (List String × FS) :=
  match
    (if (statFS fs baseDir).isNone then
      if baseDir ∈ fs.mkdirFail then
        Except.error "failed to create base directory"
      else Except.ok (mkdirAll fs baseDir)
    else Except.ok fs : Except String FS)
  with
  | .error e => .error e
  | .ok fs2 =>
    match FindInDirectory fs2 baseDir with
    | .error e => .error e
    | .ok baseDirBinaries =>
      match FindInPath fs2 pathEnv with
      | .error e => .error e
      | .ok pathBinaries => .ok (baseDirBinaries ++ pathBinaries, fs2)

/-- Go `exec`: the `findExecutable` check used by `exec.LookPath`: the stat
succeeds, the mode is not a directory and some execute bit is set. -/
def lookPathFileOk (fs : FS) (file : String) : Bool :=
  match statFS fs file with
  | none => false
  | some fi => !fi.isDir && (fi.mode &&& 0o111 != 0)

/-- Whether a candidate name contains a path separator, in which case
`exec.LookPath` checks it directly instead of searching the PATH. -/
def containsSlash (s : String) : Bool := s.toList.contains '/'

/-- The directory loop of `exec.LookPath` (Unix): an empty PATH entry means
the current directory; the first directory whose joined candidate passes
`findExecutable` wins.  A match through a relative path is Go's
`(path, ErrDot)` return, which the callers below treat as an error. -/
def lookPathDirs (fs : FS) (file : String) : List String → Except String String
  | [] => .error ("exec: executable file not found in PATH: " ++ file)
  | d :: rest =>
    let dir := if d = "" then "." else d
    let p := Join dir file
    if lookPathFileOk fs p then
      if IsAbs p then .ok p
      else .error ("exec: relative path matched: " ++ p)
    else lookPathDirs fs file rest

/-- `exec.LookPath` (Unix), over the modelled filesystem. -/
def LookPath (fs : FS) (pathEnv : String) (file : String) :
    Except String String :=
  if containsSlash file then
    if lookPathFileOk fs file then .ok file
    else .error ("exec: not executable: " ++ file)
  else lookPathDirs fs file (SplitList pathEnv)

/-- The first `for … range binNames` loop of `FindExecutable`: the first
candidate that `exec.LookPath` resolves. -/
def findExecutablePathGo (fs : FS) (pathEnv : String) :
    List String → Option String
  | [] => none
  | binName :: rest =>
    match LookPath fs pathEnv binName with
    | .ok cmdPath => some cmdPath
    | .error _ => findExecutablePathGo fs pathEnv rest

/-- The second `for … range binNames` loop of `FindExecutable`: the first
candidate in the base directory that `IsExecutable` accepts. -/
def findExecutableBaseGo (fs : FS) (expandedBaseDir : String) :
    List String → Option String
  | [] => none
  | binName :: rest =>
    let fullPath := Join expandedBaseDir binName
    if IsExecutable fs fullPath then some fullPath
    else findExecutableBaseGo fs expandedBaseDir rest

/-- `FindExecutable` from pkg/binary: try both naming conventions against
the PATH via `exec.LookPath`, then against the expanded base directory via
`IsExecutable`, and fail with a not-found error otherwise.  `expandEnv`
stands for `os.ExpandEnv` under the ambient environment. -/
def FindExecutable (fs : FS) (pathEnv : String) (expandEnv : String → String)
    (command : String) (baseDir : String) : Except String String :=
  let binNames := [MMPrefix ++ command, MasterMoldPrefix ++ command]
  let expandedBaseDir := expandEnv baseDir
  match findExecutablePathGo fs pathEnv binNames with
  | some cmdPath => .ok cmdPath
  | none =>
    match findExecutableBaseGo fs expandedBaseDir binNames with
    | some fullPath => .ok fullPath
    | none => .error ("subcommand '" ++ command ++ "' not found")

/-- `BinaryInfo` from pkg/display. -/
structure BinaryInfo where
  Name : String
  FullPath : String
deriving Repr, DecidableEq

/-- The loop of `ProcessBinaries`: the `seenCommands` set and the growing
result, with already-seen command names skipped. -/
def processBinariesGo (seenCommands : List String) :
    List String → List BinaryInfo
  | [] => []
  | binaryPath :: rest =>
    let commandName := ExtractCommandName binaryPath
    if commandName ∈ seenCommands then processBinariesGo seenCommands rest
    else
      ⟨commandName, binaryPath⟩ ::
        processBinariesGo (commandName :: seenCommands) rest

/-- `ProcessBinaries` from pkg/display: unique binary information, first
occurrence of each logical command name winning. -/
def ProcessBinaries (binaryPaths : List String) : List BinaryInfo :=
  processBinariesGo [] binaryPaths

/-- A command handler from pkg/command: `Execute(args) error`, where `none`
is Go's nil error (success) and `some msg` an error. -/
def Handler := List String → Option String

/-- `Registry` from pkg/command: the handler map and the optional
subcommand-executor delegate (a nil function field when absent). -/
structure Registry where
  handlers : List (String × Handler)
  subcommandExecutor : Option (String → List String → Option String)

/-- `Registry.Get`: the handler registered for a name, if any. -/
def Registry.Get (r : Registry) (name : String) : Option Handler :=
  r.handlers.lookup name

/-- The `Registry.ExecuteSubcommand` method of pkg/command as written: a
stub that returns nil (its body is the comment "This will be implemented in
a separate file" and `return nil`). -/
def Registry.ExecuteSubcommand (_r : Registry) (_name : String)
    (_args : List String) : Option String :=
  none

/-- `Registry.Execute` from pkg/command: a registered handler wins;
otherwise the delegate runs when configured; otherwise the
`ExecuteSubcommand` stub. -/
def Registry.Execute (r : Registry) (name : String) (args : List String) :
    Option String :=
  match r.Get name with
  | some handler => handler args
  | none =>
    match r.subcommandExecutor with
    | some executor => executor name args
    | none => r.ExecuteSubcommand name args

/-- The candidates one PATH directory contributes inside `FindInPath`: its
scan result, or nothing when the scan fails (the directory is skipped). -/
def dirContribution (fs : FS) (d : String) : List String :=
  match FindInDirectory fs d with
  | .ok binaries => binaries
  | .error _ => []

/-- Concrete filesystem for the C2 scenario: the earlier PATH directory
`/d1` holds executable `master-mold-foo`, the later directory `/d2` holds
executable `mm-foo`. -/
def fsC2 : FS :=
  { stats := [("/d1", ⟨true, 0o755⟩), ("/d2", ⟨true, 0o755⟩),
              ("/d1/master-mold-foo", ⟨false, 0o755⟩),
              ("/d2/mm-foo", ⟨false, 0o755⟩)]
    readdirs := []
    mkdirFail := [] }

/-- Concrete filesystem for the C3 scenario: a PATH directory `/bin` with
executable `mm-foo`, and a fallback directory `/fb` that also holds
executable `mm-foo`. -/
def fsC3 : FS :=
  { stats := [("/bin", ⟨true, 0o755⟩), ("/bin/mm-foo", ⟨false, 0o755⟩),
              ("/fb", ⟨true, 0o755⟩), ("/fb/mm-foo", ⟨false, 0o755⟩)]
    readdirs := []
    mkdirFail := [] }

/-- Concrete filesystem for the C4 scenario: fallback `/fb` with `mm-a`,
PATH `/p1` (readable, with `mm-a`), `/p2` (missing) and `/p3`
(unreadable). -/
def fsC4 : FS :=
  { stats := [("/fb", ⟨true, 0o755⟩), ("/fb/mm-a", ⟨false, 0o755⟩),
              ("/p1", ⟨true, 0o755⟩), ("/p1/mm-a", ⟨false, 0o755⟩),
              ("/p3", ⟨true, 0o755⟩)]
    readdirs := [("/fb", some [⟨"mm-a", false⟩]),
                 ("/p1", some [⟨"mm-a", false⟩]),
                 ("/p3", none)]
    mkdirFail := [] }

/-- Concrete filesystem for the C8 scenario: fallback `/fb` holds a
non-executable regular file `mm-bar` (mode 0644) and nothing else; the
PATH is empty. -/
def fsC8 : FS :=
  { stats := [("/fb", ⟨true, 0o755⟩), ("/fb/mm-bar", ⟨false, 0o644⟩)]
    readdirs := [("/fb", some [⟨"mm-bar", false⟩])]
    mkdirFail := [] }

/-- Concrete filesystem for the C9 scenario: nothing exists yet. -/
def fsC9 : FS :=
  { stats := [], readdirs := [], mkdirFail := [] }

/-- Concrete filesystem for the C10 scenario: the fallback directory holds
a directory named `mm-tool` whose mode has execute bits set. -/
def fsC10 : FS :=
  { stats := [("/fb", ⟨true, 0o755⟩), ("/fb/mm-tool", ⟨true, 0o755⟩)]
    readdirs := [("/fb", some [⟨"mm-tool", true⟩])]
    mkdirFail := [] }

/-! ## Helper lemmas -/

theorem findExecutable_eq_match (fs : FS) (pathEnv : String)
    (expandEnv : String → String) (command baseDir : String) :
    FindExecutable fs pathEnv expandEnv command baseDir =
      match findExecutablePathGo fs pathEnv
          [MMPrefix ++ command, MasterMoldPrefix ++ command] with
      | some cmdPath => .ok cmdPath
      | none =>
        match findExecutableBaseGo fs (expandEnv baseDir)
            [MMPrefix ++ command, MasterMoldPrefix ++ command] with
        | some fullPath => .ok fullPath
        | none => .error ("subcommand '" ++ command ++ "' not found") := rfl

theorem findExecutablePathGo_cons (fs : FS) (pathEnv binName : String)
    (rest : List String) :
    findExecutablePathGo fs pathEnv (binName :: rest) =
      match LookPath fs pathEnv binName with
      | .ok cmdPath => some cmdPath
      | .error _ => findExecutablePathGo fs pathEnv rest := rfl

theorem findExecutableBaseGo_some {fs : FS} {expandedBaseDir fullPath : String}
    {names : List String}
    (h : findExecutableBaseGo fs expandedBaseDir names = some fullPath) :
    IsExecutable fs fullPath = true ∧
      ∃ n, n ∈ names ∧ fullPath = Join expandedBaseDir n := by
  induction names with
  | nil => simp [findExecutableBaseGo] at h
  | cons n rest ih =>
    by_cases hex : IsExecutable fs (Join expandedBaseDir n) = true
    · rw [show findExecutableBaseGo fs expandedBaseDir (n :: rest) =
          some (Join expandedBaseDir n) by
        simp [findExecutableBaseGo, hex]] at h
      obtain rfl : Join expandedBaseDir n = fullPath := by
        injection h
      exact ⟨hex, n, List.mem_cons_self _ _, rfl⟩
    · rw [show findExecutableBaseGo fs expandedBaseDir (n :: rest) =
          findExecutableBaseGo fs expandedBaseDir rest by
        simp [findExecutableBaseGo, hex]] at h
      obtain ⟨h1, n2, h2, h3⟩ := ih h
      exact ⟨h1, n2, List.mem_cons_of_mem _ h2, h3⟩

theorem isExecutable_iff (fs : FS) (path : String) :
    IsExecutable fs path = true ↔
      ∃ fi, statFS fs path = some fi ∧ fi.mode &&& 0o111 ≠ 0 := by
  cases hstat : statFS fs path with
  | none => simp [IsExecutable, hstat]
  | some fi => simp [IsExecutable, hstat, bne_iff_ne]

theorem findInPathGo_eq_flatMap (fs : FS) (dirs : List String) :
    findInPathGo fs dirs = dirs.flatMap (dirContribution fs) := by
  induction dirs with
  | nil => rfl
  | cons d rest ih =>
    cases h : FindInDirectory fs d with
    | ok bins => simp [findInPathGo, dirContribution, h, ih]
    | error e => simp [findInPathGo, dirContribution, h, ih]

theorem flatMap_eq_nil_of_forall {α β : Type} (l : List α) (f : α → List β)
    (h : ∀ x, x ∈ l → f x = []) : l.flatMap f = [] := by
  induction l with
  | nil => rfl
  | cons a t ih =>
    rw [List.flatMap_cons, h a (List.mem_cons_self _ _),
      ih (fun x hx => h x (List.mem_cons_of_mem _ hx))]
    rfl

theorem findAll_ok {fs : FS} {pathEnv baseDir : String} {l : List String}
    {fs2 : FS} (h : FindAll fs pathEnv baseDir = .ok (l, fs2)) :
    ∃ baseBins, FindInDirectory fs2 baseDir = .ok baseBins ∧
      l = baseBins ++ findInPathGo fs2 (splitOnColon pathEnv) := by
  unfold FindAll at h
  split at h
  · exact absurd h (by simp)
  · rename_i fs3 heq
    split at h
    · exact absurd h (by simp)
    · rename_i baseBins heq2
      rw [show FindInPath fs3 pathEnv =
            .ok (findInPathGo fs3 (splitOnColon pathEnv)) from rfl] at h
      obtain ⟨h1, h2⟩ : baseBins ++ findInPathGo fs3 (splitOnColon pathEnv) = l
          ∧ fs3 = fs2 := by
        have := h
        injection this with hpair
        exact ⟨congrArg Prod.fst hpair, congrArg Prod.snd hpair⟩
      subst h2
      exact ⟨baseBins, heq2, h1.symm⟩

theorem findInDirectory_mkdirAll (fs : FS) (dir : String) :
    FindInDirectory (mkdirAll fs dir) dir = .ok [] := by
  have h1 : statFS (mkdirAll fs dir) dir = some ⟨true, 0o755⟩ := by
    simp [statFS, mkdirAll, List.lookup]
  have h2 : readDirFS (mkdirAll fs dir) dir = some [] := by
    simp [readDirFS, mkdirAll, List.lookup]
  unfold FindInDirectory
  rw [h1, h2]
  rfl

theorem processBinariesGo_mem {seen l : List String} {e : BinaryInfo}
    (h : e ∈ processBinariesGo seen l) :
    e.Name ∉ seen ∧ e.Name = ExtractCommandName e.FullPath ∧ e.FullPath ∈ l := by
  induction l generalizing seen with
  | nil => simp [processBinariesGo] at h
  | cons p rest ih =>
    by_cases hc : ExtractCommandName p ∈ seen
    · rw [show processBinariesGo seen (p :: rest) = processBinariesGo seen rest by
        simp [processBinariesGo, hc]] at h
      obtain ⟨h1, h2, h3⟩ := ih h
      exact ⟨h1, h2, List.mem_cons_of_mem _ h3⟩
    · rw [show processBinariesGo seen (p :: rest) =
          ⟨ExtractCommandName p, p⟩ ::
            processBinariesGo (ExtractCommandName p :: seen) rest by
        simp [processBinariesGo, hc]] at h
      rcases List.mem_cons.mp h with he | h
      · subst he
        exact ⟨hc, rfl, List.mem_cons_self _ _⟩
      · obtain ⟨h1, h2, h3⟩ := ih h
        exact ⟨fun hs => h1 (List.mem_cons_of_mem _ hs), h2,
          List.mem_cons_of_mem _ h3⟩

theorem processBinariesGo_nodup (seen l : List String) :
    ((processBinariesGo seen l).map BinaryInfo.Name).Nodup := by
  induction l generalizing seen with
  | nil => simp [processBinariesGo]
  | cons p rest ih =>
    by_cases hc : ExtractCommandName p ∈ seen
    · rw [show processBinariesGo seen (p :: rest) = processBinariesGo seen rest by
        simp [processBinariesGo, hc]]
      exact ih seen
    · rw [show processBinariesGo seen (p :: rest) =
          ⟨ExtractCommandName p, p⟩ ::
            processBinariesGo (ExtractCommandName p :: seen) rest by
        simp [processBinariesGo, hc]]
      rw [List.map_cons, List.nodup_cons]
      refine ⟨fun hmem => ?_, ih _⟩
      obtain ⟨e, he, hname⟩ := List.mem_map.mp hmem
      have := (processBinariesGo_mem he).1
      rw [hname] at this
      exact this (List.mem_cons_self _ _)

theorem processBinariesGo_covers {seen l : List String} {p : String}
    (hp : p ∈ l) :
    ExtractCommandName p ∈ seen ∨
      ExtractCommandName p ∈ (processBinariesGo seen l).map BinaryInfo.Name := by
  induction l generalizing seen with
  | nil => cases hp
  | cons q rest ih =>
    by_cases hc : ExtractCommandName q ∈ seen
    · rw [show processBinariesGo seen (q :: rest) = processBinariesGo seen rest by
        simp [processBinariesGo, hc]]
      rcases List.mem_cons.mp hp with rfl | hp2
      · exact Or.inl hc
      · exact ih hp2
    · rw [show processBinariesGo seen (q :: rest) =
          ⟨ExtractCommandName q, q⟩ ::
            processBinariesGo (ExtractCommandName q :: seen) rest by
        simp [processBinariesGo, hc]]
      rw [List.map_cons]
      rcases List.mem_cons.mp hp with rfl | hp2
      · exact Or.inr (List.mem_cons_self _ _)
      · rcases @ih (ExtractCommandName q :: seen) hp2 with h1 | h2
        · rcases List.mem_cons.mp h1 with heq | hseen
          · exact Or.inr (heq ▸ List.mem_cons_self _ _)
          · exact Or.inl hseen
        · exact Or.inr (List.mem_cons_of_mem _ h2)

theorem processBinariesGo_first {seen l : List String} {e : BinaryInfo}
    (h : e ∈ processBinariesGo seen l) :
    l.find? (fun q => ExtractCommandName q == e.Name) = some e.FullPath := by
  induction l generalizing seen with
  | nil => simp [processBinariesGo] at h
  | cons p rest ih =>
    by_cases hc : ExtractCommandName p ∈ seen
    · rw [show processBinariesGo seen (p :: rest) = processBinariesGo seen rest by
        simp [processBinariesGo, hc]] at h
      have hnot := (processBinariesGo_mem h).1
      have hne : (ExtractCommandName p == e.Name) = false := by
        rw [beq_eq_false_iff_ne]
        intro heq
        exact hnot (heq ▸ hc)
      rw [List.find?_cons]
      simp only [hne, cond_false]
      exact ih h
    · rw [show processBinariesGo seen (p :: rest) =
          ⟨ExtractCommandName p, p⟩ ::
            processBinariesGo (ExtractCommandName p :: seen) rest by
        simp [processBinariesGo, hc]] at h
      rcases List.mem_cons.mp h with he | h2
      · subst he
        rw [List.find?_cons]
        simp
      · have hnot := (processBinariesGo_mem h2).1
        have hne : (ExtractCommandName p == e.Name) = false := by
          rw [beq_eq_false_iff_ne]
          intro heq
          exact hnot (heq ▸ List.mem_cons_self _ _)
        rw [List.find?_cons]
        simp only [hne, cond_false]
        exact ih h2

/-! ## Claims -/

/-- C1 (code bug): with no registered handler for the name and no
subcommand-executor delegate configured, `Registry.Execute` does not return
a command-not-found error: it falls into the `ExecuteSubcommand` stub and
returns nil (success).  Evaluated at the failing input
`Execute "bar" []` on a registry with an empty handler map and a nil
delegate. -/
theorem c1_execute_no_handler_no_delegate_returns_nil :
    Registry.Execute ⟨[], none⟩ "bar" [] = none := rfl

/-- C7: for every filename `f`, `HasValidPrefix f` is true iff `f` starts
with `"mm-"` or with `"master-mold-"`. -/
theorem c7_hasValidPrefix_characterization (f : String) :
    HasValidPrefix f = (HasPrefix f "mm-" || HasPrefix f "master-mold-") := by
  show hasValidPrefixGo f [MMPrefix, MasterMoldPrefix] = _
  rw [show MMPrefix = "mm-" from rfl, show MasterMoldPrefix = "master-mold-" from rfl]
  cases h1 : HasPrefix f "mm-" <;> cases h2 : HasPrefix f "master-mold-" <;>
    simp [hasValidPrefixGo, h1, h2]

/-- C6: for a path whose base name starts with `"mm-"`, `ExtractCommandName`
returns the base name with exactly that prefix removed once; when the base
name does not start with `"mm-"` but starts with `"master-mold-"`, exactly
that prefix is removed once; with no recognized prefix the base name is
returned unchanged.  First match wins in the fixed order `mm-` before
`master-mold-`. -/
theorem c6_extractCommandName_strips (p : String) :
    (∀ rest : List Char, (Base p).toList = "mm-".toList ++ rest →
       ExtractCommandName p = String.mk rest) ∧
    (∀ rest : List Char, HasPrefix (Base p) "mm-" = false →
       (Base p).toList = "master-mold-".toList ++ rest →
       ExtractCommandName p = String.mk rest) ∧
    (HasPrefix (Base p) "mm-" = false → HasPrefix (Base p) "master-mold-" = false →
       ExtractCommandName p = Base p) := by
  refine ⟨fun rest h => ?_, fun rest h1 h => ?_, fun h1 h2 => ?_⟩
  · have hpre : HasPrefix (Base p) "mm-" = true :=
      List.isPrefixOf_iff_prefix.mpr ⟨rest, h.symm⟩
    show extractCommandNameGo (Base p) [MMPrefix, MasterMoldPrefix] = _
    rw [show MMPrefix = "mm-" from rfl]
    simp only [extractCommandNameGo, hpre, if_true, TrimPrefix, h]
    rw [show ("mm-" : String).toList.length = ("mm-" : String).toList.length from rfl,
      List.drop_left]
  · have hpre : HasPrefix (Base p) "master-mold-" = true :=
      List.isPrefixOf_iff_prefix.mpr ⟨rest, h.symm⟩
    show extractCommandNameGo (Base p) [MMPrefix, MasterMoldPrefix] = _
    rw [show MMPrefix = "mm-" from rfl, show MasterMoldPrefix = "master-mold-" from rfl]
    simp only [extractCommandNameGo, h1, hpre, if_true, Bool.false_eq_true, if_false,
      TrimPrefix, h]
    rw [List.drop_left]
  · show extractCommandNameGo (Base p) [MMPrefix, MasterMoldPrefix] = _
    rw [show MMPrefix = "mm-" from rfl, show MasterMoldPrefix = "master-mold-" from rfl]
    simp only [extractCommandNameGo, h1, h2, Bool.false_eq_true, if_false]

/-- C6 witness: the theorem applied at `"/usr/bin/mm-test"`, whose base
name `mm-test` starts with `mm-`. -/
theorem c6_witness :
    ExtractCommandName "/usr/bin/mm-test" = String.mk "test".toList :=
  (c6_extractCommandName_strips "/usr/bin/mm-test").1 "test".toList (by decide)

/-- C5: the display-layer processor yields one entry per distinct logical
command name (names are nodup, and every input path's logical name is
covered), each entry bound to the path of the first occurrence of its name
in the input; in particular `[/a/mm-x, /b/mm-x, /c/mm-y]` yields exactly
`x ↦ /a/mm-x` and `y ↦ /c/mm-y`. -/
theorem c5_processBinaries_dedup (l : List String) :
    ((ProcessBinaries l).map BinaryInfo.Name).Nodup ∧
    (∀ p, p ∈ l →
       ExtractCommandName p ∈ (ProcessBinaries l).map BinaryInfo.Name) ∧
    (∀ e, e ∈ ProcessBinaries l →
       l.find? (fun q => ExtractCommandName q == e.Name) = some e.FullPath) ∧
    ProcessBinaries ["/a/mm-x", "/b/mm-x", "/c/mm-y"] =
      [⟨"x", "/a/mm-x"⟩, ⟨"y", "/c/mm-y"⟩] := by
  refine ⟨processBinariesGo_nodup [] l, fun p hp => ?_, fun e he => ?_, by decide⟩
  · rcases @processBinariesGo_covers [] l p hp with h | h
    · cases h
    · exact h
  · exact processBinariesGo_first he

/-- C5 witness: the theorem applied at the concrete input list of the
claim. -/
theorem c5_witness :
    ProcessBinaries ["/a/mm-x", "/b/mm-x", "/c/mm-y"] =
      [⟨"x", "/a/mm-x"⟩, ⟨"y", "/c/mm-y"⟩] :=
  (c5_processBinaries_dedup ["/a/mm-x", "/b/mm-x", "/c/mm-y"]).2.2.2

/-- C2 counterexample: on a search-path `/d1:/d2` where the earlier
directory `/d1` holds executable `master-mold-foo` and the later directory
`/d2` holds executable `mm-foo`, `FindExecutable` returns the match from
the LATER directory, so directory order is not the primary key. -/
theorem c2_counterexample :
    lookPathFileOk fsC2 "/d1/master-mold-foo" = true ∧
    lookPathFileOk fsC2 "/d2/mm-foo" = true ∧
    FindExecutable fsC2 "/d1:/d2" (fun s => s) "foo" "/base" =
      .ok "/d2/mm-foo" ∧
    "/d2/mm-foo" ≠ "/d1/master-mold-foo" :=
  ⟨rfl, rfl, rfl, by decide⟩

/-- C2 amended: in the search-path tier of `FindExecutable`,
prefix-iteration order is the primary key: the whole search-path is
consulted for `mm-<command>` first (a successful lookup wins outright,
whatever the other prefix would match), and only when that lookup fails is
the whole search-path consulted for `master-mold-<command>`; directory
order is the tie-break within a single prefix (inside `LookPath`). -/
theorem c2_amended_prefix_primary (fs : FS) (pathEnv : String)
    (expandEnv : String → String) (command baseDir : String) :
    (∀ p, LookPath fs pathEnv (MMPrefix ++ command) = .ok p →
       FindExecutable fs pathEnv expandEnv command baseDir = .ok p) ∧
    (∀ e q, LookPath fs pathEnv (MMPrefix ++ command) = .error e →
       LookPath fs pathEnv (MasterMoldPrefix ++ command) = .ok q →
       FindExecutable fs pathEnv expandEnv command baseDir = .ok q) := by
  constructor
  · intro p h
    have hloop : findExecutablePathGo fs pathEnv
        [MMPrefix ++ command, MasterMoldPrefix ++ command] = some p := by
      rw [findExecutablePathGo_cons, h]
    rw [findExecutable_eq_match, hloop]
  · intro e q h1 h2
    have hloop : findExecutablePathGo fs pathEnv
        [MMPrefix ++ command, MasterMoldPrefix ++ command] = some q := by
      rw [findExecutablePathGo_cons, h1, findExecutablePathGo_cons, h2]
    rw [findExecutable_eq_match, hloop]

/-- C2 witness: the amended theorem applied at the counterexample
filesystem: the `mm-` lookup succeeds at `/d2/mm-foo` and wins. -/
theorem c2_amended_witness :
    FindExecutable fsC2 "/d1:/d2" (fun s => s) "foo" "/base" =
      .ok "/d2/mm-foo" :=
  (c2_amended_prefix_primary fsC2 "/d1:/d2" (fun s => s) "foo" "/base").1
    "/d2/mm-foo" rfl

/-- C3: when the search-path tier resolves the command, `FindExecutable`
returns that search-path match whatever the fallback directory holds; and
when the search-path tier resolves nothing, any successful result is an
executable candidate path inside the expanded fallback directory. -/
theorem c3_searchpath_precedence (fs : FS) (pathEnv : String)
    (expandEnv : String → String) (command baseDir : String) :
    (∀ p, findExecutablePathGo fs pathEnv
        [MMPrefix ++ command, MasterMoldPrefix ++ command] = some p →
       FindExecutable fs pathEnv expandEnv command baseDir = .ok p) ∧
    (findExecutablePathGo fs pathEnv
        [MMPrefix ++ command, MasterMoldPrefix ++ command] = none →
       ∀ q, FindExecutable fs pathEnv expandEnv command baseDir = .ok q →
         IsExecutable fs q = true ∧
           (q = Join (expandEnv baseDir) (MMPrefix ++ command) ∨
            q = Join (expandEnv baseDir) (MasterMoldPrefix ++ command))) := by
  constructor
  · intro p h
    rw [findExecutable_eq_match, h]
  · intro hnone q hq
    rw [findExecutable_eq_match, hnone] at hq
    cases hbase : findExecutableBaseGo fs (expandEnv baseDir)
        [MMPrefix ++ command, MasterMoldPrefix ++ command] with
    | none => rw [hbase] at hq; exact absurd hq (by simp)
    | some fullPath =>
      rw [hbase] at hq
      obtain rfl : fullPath = q := by injection hq
      obtain ⟨hex, n, hn, hj⟩ := findExecutableBaseGo_some hbase
      rcases List.mem_cons.mp hn with rfl | hn2
      · exact ⟨hex, Or.inl hj⟩
      · rcases List.mem_cons.mp hn2 with rfl | hn3
        · exact ⟨hex, Or.inr hj⟩
        · cases hn3

/-- C3 witness: with `mm-foo` executable both in the PATH directory `/bin`
and in the fallback directory `/fb`, the PATH match is returned. -/
theorem c3_witness :
    FindExecutable fsC3 "/bin" (fun s => s) "foo" "/fb" = .ok "/bin/mm-foo" ∧
    IsExecutable fsC3 "/fb/mm-foo" = true :=
  ⟨(c3_searchpath_precedence fsC3 "/bin" (fun s => s) "foo" "/fb").1
    "/bin/mm-foo" rfl, rfl⟩

/-- C4: every successful `FindAll` result is the fallback-directory matches
followed by the search-path matches in discovery order (no deduplication of
any kind: the result is literally the concatenation); `FindInPath` never
fails and is the in-order concatenation of each PATH directory's
contribution; a missing directory scans to no candidates and no error, and
a directory whose scan fails contributes no candidates. -/
theorem c4_findAll_concatenation (fs : FS) (pathEnv baseDir : String) :
    (∀ l fs2, FindAll fs pathEnv baseDir = .ok (l, fs2) →
       ∃ baseBins, FindInDirectory fs2 baseDir = .ok baseBins ∧
         l = baseBins ++ (splitOnColon pathEnv).flatMap (dirContribution fs2)) ∧
    FindInPath fs pathEnv =
      .ok ((splitOnColon pathEnv).flatMap (dirContribution fs)) ∧
    (∀ d, statFS fs d = none → FindInDirectory fs d = .ok []) ∧
    (∀ d e, FindInDirectory fs d = .error e → dirContribution fs d = []) := by
  refine ⟨fun l fs2 h => ?_, ?_, fun d hd => ?_, fun d e hde => ?_⟩
  · obtain ⟨baseBins, h1, h2⟩ := findAll_ok h
    exact ⟨baseBins, h1, by rw [h2, findInPathGo_eq_flatMap]⟩
  · rw [show FindInPath fs pathEnv =
        .ok (findInPathGo fs (splitOnColon pathEnv)) from rfl,
      findInPathGo_eq_flatMap]
  · unfold FindInDirectory
    rw [hd]
    rfl
  · unfold dirContribution
    rw [hde]

/-- C4 witness: the theorem applied at a filesystem whose fallback and one
readable PATH directory both hold `mm-a` (the duplicate logical name is
kept), while one PATH directory is missing and one is unreadable. -/
theorem c4_witness :
    ∃ baseBins, FindInDirectory fsC4 "/fb" = .ok baseBins ∧
      ["/fb/mm-a", "/p1/mm-a"] =
        baseBins ++ (splitOnColon "/p1:/p2:/p3").flatMap (dirContribution fsC4) :=
  (c4_findAll_concatenation fsC4 "/p1:/p2:/p3" "/fb").1
    ["/fb/mm-a", "/p1/mm-a"] fsC4 rfl

/-- C8: when `exec.LookPath` fails for both candidate names and the
expanded fallback directory holds the `mm-` candidate as an existing file
with no execute permission bit (and no `master-mold-` candidate),
`FindExecutable` fails with the not-found error; and the executability test
holds exactly when the stat succeeds and some execute bit is set. -/
theorem c8_nonexecutable_fallback_not_found (fs : FS) (pathEnv : String)
    (expandEnv : String → String) (command baseDir : String)
    (st : FileStat) (emm emold : String)
    (hmm : LookPath fs pathEnv (MMPrefix ++ command) = .error emm)
    (hmold : LookPath fs pathEnv (MasterMoldPrefix ++ command) = .error emold)
    (hstat : statFS fs (Join (expandEnv baseDir) (MMPrefix ++ command)) =
      some st)
    (hmode : st.mode &&& 0o111 = 0)
    (hother : statFS fs (Join (expandEnv baseDir) (MasterMoldPrefix ++ command))
      = none) :
    FindExecutable fs pathEnv expandEnv command baseDir =
      .error ("subcommand '" ++ command ++ "' not found") ∧
    (∀ path, IsExecutable fs path = true ↔
       ∃ fi, statFS fs path = some fi ∧ fi.mode &&& 0o111 ≠ 0) := by
  refine ⟨?_, fun path => isExecutable_iff fs path⟩
  have hloop : findExecutablePathGo fs pathEnv
      [MMPrefix ++ command, MasterMoldPrefix ++ command] = none := by
    rw [findExecutablePathGo_cons, hmm, findExecutablePathGo_cons, hmold]
    rfl
  have hex1 : IsExecutable fs (Join (expandEnv baseDir) (MMPrefix ++ command))
      = false := by
    unfold IsExecutable
    rw [hstat]
    simp [hmode]
  have hex2 : IsExecutable fs
      (Join (expandEnv baseDir) (MasterMoldPrefix ++ command)) = false := by
    unfold IsExecutable
    rw [hother]
  have hbase : findExecutableBaseGo fs (expandEnv baseDir)
      [MMPrefix ++ command, MasterMoldPrefix ++ command] = none := by
    simp [findExecutableBaseGo, hex1, hex2]
  rw [findExecutable_eq_match, hloop, hbase]

/-- C8 witness: empty PATH, fallback `/fb` holding only the non-executable
regular file `mm-bar` (mode 0644): the lookup fails with not-found. -/
theorem c8_witness :
    FindExecutable fsC8 "" (fun s => s) "bar" "/fb" =
      .error ("subcommand '" ++ "bar" ++ "' not found") :=
  (c8_nonexecutable_fallback_not_found fsC8 "" (fun s => s) "bar" "/fb"
    ⟨false, 0o644⟩
    "exec: executable file not found in PATH: mm-bar"
    "exec: executable file not found in PATH: master-mold-bar"
    rfl rfl rfl (by decide) rfl).1

/-- C9: `FindAll` creates the fallback directory (mode 0755) when it does
not exist; a failure of that creation is an error for the whole call; and
when the (possibly just created) fallback directory is empty and no
search-path directory contributes a match, the call returns zero
entries. -/
theorem c9_findAll_creates_baseDir (fs : FS) (pathEnv baseDir : String) :
    (statFS fs baseDir = none → baseDir ∉ fs.mkdirFail →
       (∃ l, FindAll fs pathEnv baseDir = .ok (l, mkdirAll fs baseDir)) ∧
       statFS (mkdirAll fs baseDir) baseDir = some ⟨true, 0o755⟩) ∧
    (statFS fs baseDir = none → baseDir ∈ fs.mkdirFail →
       FindAll fs pathEnv baseDir = .error "failed to create base directory") ∧
    (∀ l fs2, FindAll fs pathEnv baseDir = .ok (l, fs2) →
       readDirFS fs2 baseDir = some [] →
       (∀ d, d ∈ splitOnColon pathEnv → dirContribution fs2 d = []) →
       l = []) := by
  refine ⟨fun hstat hnf => ?_, fun hstat hf => ?_, fun l fs2 h hempty hpath => ?_⟩
  · constructor
    · refine ⟨findInPathGo (mkdirAll fs baseDir) (splitOnColon pathEnv), ?_⟩
      unfold FindAll
      rw [hstat]
      simp only [Option.isNone_none, if_true, hnf, if_false,
        findInDirectory_mkdirAll]
      rfl
    · simp [statFS, mkdirAll, List.lookup]
  · unfold FindAll
    rw [hstat]
    simp only [Option.isNone_none, if_true, hf, if_true]
  · obtain ⟨baseBins, h1, h2⟩ := findAll_ok h
    have hb : baseBins = [] := by
      unfold FindInDirectory at h1
      split at h1
      · injection h1 with h1e
        exact h1e.symm
      · rw [hempty] at h1
        injection h1 with h1e
        rw [← h1e]
        rfl
    rw [h2, hb, List.nil_append, findInPathGo_eq_flatMap]
    exact flatMap_eq_nil_of_forall _ _ hpath

/-- C9 witness: on an empty filesystem, `FindAll` over an empty PATH
creates `/fb` as a mode-0755 directory and returns zero entries. -/
theorem c9_witness :
    FindAll fsC9 "" "/fb" = .ok ([], mkdirAll fsC9 "/fb") ∧
    statFS (mkdirAll fsC9 "/fb") "/fb" = some ⟨true, 0o755⟩ := by
  have h := (c9_findAll_creates_baseDir fsC9 "" "/fb").1 rfl (by decide)
  exact ⟨rfl, h.2⟩

/-- C10: the executability test is exactly "the stat succeeds and some
execute bit is set" — it does not require a regular file — so when the
search-path resolves nothing and the fallback directory holds a DIRECTORY
named `mm-<command>` with an execute bit, `FindExecutable` resolves the
command to that directory path. -/
theorem c10_directory_resolves (fs : FS) (pathEnv : String)
    (expandEnv : String → String) (command baseDir : String)
    (m : Nat) (emm emold : String)
    (hmm : LookPath fs pathEnv (MMPrefix ++ command) = .error emm)
    (hmold : LookPath fs pathEnv (MasterMoldPrefix ++ command) = .error emold)
    (hstat : statFS fs (Join (expandEnv baseDir) (MMPrefix ++ command)) =
      some ⟨true, m⟩)
    (hmode : m &&& 0o111 ≠ 0) :
    FindExecutable fs pathEnv expandEnv command baseDir =
      .ok (Join (expandEnv baseDir) (MMPrefix ++ command)) ∧
    (statFS fs (Join (expandEnv baseDir) (MMPrefix ++ command))).map
      FileStat.isDir = some true ∧
    (∀ path, IsExecutable fs path = true ↔
       ∃ fi, statFS fs path = some fi ∧ fi.mode &&& 0o111 ≠ 0) := by
  refine ⟨?_, by rw [hstat]; rfl, fun path => isExecutable_iff fs path⟩
  have hloop : findExecutablePathGo fs pathEnv
      [MMPrefix ++ command, MasterMoldPrefix ++ command] = none := by
    rw [findExecutablePathGo_cons, hmm, findExecutablePathGo_cons, hmold]
    rfl
  have hex : IsExecutable fs (Join (expandEnv baseDir) (MMPrefix ++ command))
      = true := by
    unfold IsExecutable
    rw [hstat]
    simpa [bne_iff_ne] using hmode
  have hbase : findExecutableBaseGo fs (expandEnv baseDir)
      [MMPrefix ++ command, MasterMoldPrefix ++ command] =
      some (Join (expandEnv baseDir) (MMPrefix ++ command)) := by
    simp [findExecutableBaseGo, hex]
  rw [findExecutable_eq_match, hloop, hbase]

/-- C10 witness: `/fb/mm-tool` is a directory with mode 0755; with an empty
PATH, `FindExecutable` resolves command `tool` to that directory path. -/
theorem c10_witness :
    FindExecutable fsC10 "" (fun s => s) "tool" "/fb" = .ok "/fb/mm-tool" ∧
    (statFS fsC10 "/fb/mm-tool").map FileStat.isDir = some true :=
  ⟨((c10_directory_resolves fsC10 "" (fun s => s) "tool" "/fb" 0o755
    "exec: executable file not found in PATH: mm-tool"
    "exec: executable file not found in PATH: master-mold-tool"
    rfl rfl rfl (by decide)).1), rfl⟩
